import Mathlib

/-!
Verification of the `rust-intmap` bucket-array hash map engine
(`src/lib.rs`, with the key-canonicalization constants of `src/int.rs`
and `src/highest_prime.rs`).

The map state is embedded shallowly: Rust's `Vec<Vec<(u64, V)>>` becomes
`List (List (Nat × V))`, `u64` arithmetic is `Nat` arithmetic taken
`% 2 ^ 64` where the source wraps, and every operation is a pure function
from map state to map state (returning the Rust function's return value
in a product where there is one).  The two `while` loops of the source
(`ensure_load_rate` and the `with_capacity` growth loop) are embedded
with an explicit iteration budget; a budget of `count + 2` respectively
`capacity + 1` is proved sufficient for the states the source can reach,
so on those states the embedding computes the loop's true fixpoint.
-/

set_option autoImplicit false

namespace IntMapRs

/-- The map state of `IntMap<V>` (src/lib.rs lines 8-14): a bucket array
`cache` of chains of key/value pairs, the binary size exponent `size`
(`cache.len() = 2 ^ size` once constructed), the index mask `mod_mask`,
and the running element count `count`. -/
structure IntMap (V : Type) where
  cache : List (List (Nat × V))
  size : Nat
  mod_mask : Nat
  count : Nat

variable {V : Type}

/-- `hash_u64` (src/lib.rs lines 316-320 and 452-457): wrapping
multiplication of the key by the fixed constant `11400714819323198549`. -/
def hash_u64 (seed : Nat) : Nat :=
  (11400714819323198549 * seed) % 2 ^ 64

/-- `cache_index` (src/lib.rs lines 459-464): mask the hash down to a
bucket index. -/
def cache_index (mod_mask key : Nat) : Nat :=
  hash_u64 key &&& mod_mask

/-- `IntMap::calc_index` (src/lib.rs lines 322-327); same computation as
the free function `cache_index`. -/
def IntMap.calc_index (m : IntMap V) (key : Nat) : Nat :=
  cache_index m.mod_mask key

/-- `IntMap::lim` (src/lib.rs lines 329-332). -/
def IntMap.lim (m : IntMap V) : Nat :=
  2 ^ m.size

/-- The bucket at index `ix` (Rust's `self.cache[ix]`; in-bounds on every
reachable state, see `Inv`). -/
def chainAt (cache : List (List (Nat × V))) (ix : Nat) : List (Nat × V) :=
  cache.getD ix []

/-- Push a pair onto the bucket at `ix` (Rust's
`self.cache[ix].push(kv)`). -/
def pushAt (cache : List (List (Nat × V))) (ix : Nat) (kv : Nat × V) :
    List (List (Nat × V)) :=
  cache.set ix (chainAt cache ix ++ [kv])

/-- The rehash loops of both `increase_cache` variants (src/lib.rs lines
343-352 and 495-509): re-insert each pair of `kvs` into a fresh array of
`n` empty chains at its index under the new mask. -/
def rebuild (mod_mask n : Nat) (kvs : List (Nat × V)) : List (List (Nat × V)) :=
  kvs.foldl (fun c kv => pushAt c (cache_index mod_mask kv.1) kv) (List.replicate n [])

/-- Shared shape of both `increase_cache` variants: bump `size`, recompute
`mod_mask`, rebuild the bucket array from the pair sequence `kvs`. -/
def rehash_with (m : IntMap V) (kvs : List (Nat × V)) : IntMap V :=
  { cache := rebuild (2 ^ (m.size + 1) - 1) (2 ^ (m.size + 1)) kvs
    size := m.size + 1
    mod_mask := 2 ^ (m.size + 1) - 1
    count := m.count }

/-- `IntMap::increase_cache` (src/lib.rs lines 334-360): the rehash pass
`for k in vec.into_iter().flatten()` visits the old chains front to back,
each chain front to back, i.e. in `flatten` order. -/
def IntMap.increase_cache (m : IntMap V) : IntMap V :=
  rehash_with m m.cache.flatten

/-- The free function `increase_cache` (src/lib.rs lines 486-517): the
rehash pass pops chains from the back of the old array and pairs from the
back of each chain, i.e. it visits the pairs in reversed-chain,
reversed-array order. -/
def increase_cache_free (m : IntMap V) : IntMap V :=
  rehash_with m (m.cache.reverse.map List.reverse).flatten

/-- The loop of `IntMap::ensure_load_rate` (src/lib.rs lines 362-366),
with an explicit iteration budget (`ensure_go_exits` below proves the
budget used by `ensure_load_rate` large enough on well-formed states). -/
def ensure_go (fuel : Nat) (m : IntMap V) : IntMap V :=
  match fuel with
  | 0 => m
  | fuel + 1 =>
    if 70 < m.count * 100 / m.cache.length then ensure_go fuel m.increase_cache
    else m

/-- `IntMap::ensure_load_rate` (src/lib.rs lines 362-366):
`while count * 100 / cache.len() > 70 { increase_cache() }`. -/
def IntMap.ensure_load_rate (m : IntMap V) : IntMap V :=
  ensure_go (m.count + 2) m

/-- Loop of the free `ensure_load_rate` (src/lib.rs lines 519-531), which
uses the free `increase_cache`. -/
def ensure_go_free (fuel : Nat) (m : IntMap V) : IntMap V :=
  match fuel with
  | 0 => m
  | fuel + 1 =>
    if 70 < m.count * 100 / m.cache.length then ensure_go_free fuel (increase_cache_free m)
    else m

/-- The free `ensure_load_rate` (src/lib.rs lines 519-531); additionally
returns `has_cache_increased`, true iff the loop body ran at least once. -/
def ensure_load_rate_free (m : IntMap V) : IntMap V × Bool :=
  if 70 < m.count * 100 / m.cache.length then (ensure_go_free (m.count + 2) m, true)
  else (m, false)

/-- `IntMap::insert` (src/lib.rs lines 79-94): scan the bucket for the
key; if present return `false` without touching anything; otherwise bump
`count`, push the pair at the end of the bucket, and run the load check
when `count & 4 == 4`. -/
def IntMap.insert (m : IntMap V) (key : Nat) (value : V) : IntMap V × Bool :=
  let ix := m.calc_index key
  let vals := chainAt m.cache ix
  if vals.any (fun kv => kv.1 == key) then (m, false)
  else
    let count := m.count + 1
    let m' : IntMap V :=
      { m with count := count, cache := m.cache.set ix (vals ++ [(key, value)]) }
    if count &&& 4 == 4 then (m'.ensure_load_rate, true) else (m', true)

/-- `IntMap::get` (src/lib.rs lines 110-120). -/
def IntMap.get (m : IntMap V) (key : Nat) : Option V :=
  let cache_ix := cache_index m.mod_mask key
  let vals := chainAt m.cache cache_ix
  if 0 < vals.length then (vals.find? (fun kv => kv.1 == key)).map (fun kv => kv.2)
  else none

/-- Rust's `Vec::swap_remove(i)`: overwrite slot `i` with the last
element and pop the last slot (the source panics on an empty vector; its
callers only reach this with `i` in bounds). -/
def swap_remove {α : Type _} : List α → Nat → List α
  | [], _ => []
  | a :: t, i => ((a :: t).set i ((a :: t).getLast (List.cons_ne_nil a t))).dropLast

/-- Index of the first element satisfying `p` (the `for i in 0..len`
search loops of `remove` and `indices`, src/lib.rs lines 175-183 and
471-475). -/
def find_first_idx {α : Type _} (p : α → Bool) : List α → Option Nat
  | [] => none
  | a :: l => if p a then some 0 else (find_first_idx p l).map (· + 1)

/-- `IntMap::remove` (src/lib.rs lines 169-189): find the first index in
the bucket holding the key; when found, decrement `count` and
`swap_remove` it, returning the value. -/
def IntMap.remove (m : IntMap V) (key : Nat) : IntMap V × Option V :=
  let ix := m.calc_index key
  let vals := chainAt m.cache ix
  match find_first_idx (fun kv => kv.1 == key) vals with
  | none => (m, none)
  | some i =>
    match vals[i]? with
    | none => (m, none)
    | some kv =>
      ({ m with count := m.count - 1, cache := m.cache.set ix (swap_remove vals i) },
        some kv.2)

/-- `IntMap::clear` (src/lib.rs lines 221-227). -/
def IntMap.clear (m : IntMap V) : IntMap V :=
  { m with cache := m.cache.map (fun _ => []), count := 0 }

/-- `IntMap::retain` (src/lib.rs lines 250-266): filter every chain by
the predicate, counting the dropped pairs, then subtract the total from
`count`. -/
def IntMap.retain (m : IntMap V) (f : Nat → V → Bool) : IntMap V :=
  let removed := (m.cache.map (fun vals => (vals.filter (fun kv => !f kv.1 kv.2)).length)).sum
  { m with
    cache := m.cache.map (fun vals => vals.filter (fun kv => f kv.1 kv.2))
    count := m.count - removed }

/-- The `while map.lim() < capacity` loop of `IntMap::with_capacity`
(src/lib.rs lines 50-52), with an explicit iteration budget. -/
def grow_go (fuel : Nat) (m : IntMap V) (capacity : Nat) : IntMap V :=
  match fuel with
  | 0 => m
  | fuel + 1 =>
    if m.lim < capacity then grow_go fuel m.increase_cache capacity else m

/-- `IntMap::with_capacity` (src/lib.rs lines 40-55): start from the
all-empty state, run the free `increase_cache` once, then grow until
`lim >= capacity`. -/
def IntMap.with_capacity (capacity : Nat) : IntMap V :=
  let m0 : IntMap V := { cache := [], size := 0, mod_mask := 0, count := 0 }
  grow_go (capacity + 1) (increase_cache_free m0) capacity

/-- `IntMap::new` (src/lib.rs lines 26-28). -/
def IntMap.new : IntMap V :=
  IntMap.with_capacity 4

/-- `IntMap::assert_count` (src/lib.rs lines 390-394): `count` equals the
number of pairs produced by iterating every chain. -/
def IntMap.assert_count (m : IntMap V) : Bool :=
  m.count == m.cache.flatten.length

/-- `PartialEq for IntMap` (src/lib.rs lines 779-786):
`self.iter().all(|(k, a)| other.get(*k) == Some(a))`. -/
def eqMap [BEq V] (a b : IntMap V) : Bool :=
  a.cache.flatten.all (fun kv => b.get kv.1 == some kv.2)

/-- The free function `indices` (src/lib.rs lines 466-478): bucket index
for the key plus the first within-bucket index holding the key, if any. -/
def indices (cache : List (List (Nat × V))) (mod_mask key : Nat) : Nat × Option Nat :=
  let cache_ix := cache_index mod_mask key
  let vals := chainAt cache cache_ix
  (cache_ix, find_first_idx (fun kv => kv.1 == key) vals)

/-- The two variants of `Entry` (src/lib.rs lines 806-839), reduced to
the indices each one caches. -/
inductive EntryKind where
  | occupied (cache_ix vals_ix : Nat)
  | vacant (cache_ix : Nat)
deriving DecidableEq

/-- `Entry::new` via `IntMap::entry` (src/lib.rs lines 440-448 and
813-839). -/
def IntMap.entry (m : IntMap V) (key : Nat) : EntryKind :=
  match indices m.cache m.mod_mask key with
  | (cache_ix, some vals_ix) => EntryKind.occupied cache_ix vals_ix
  | (cache_ix, none) => EntryKind.vacant cache_ix

/-- `VacantEntry::insert` together with `insert_impl` (src/lib.rs lines
902-953): push at the cached bucket index, bump `count`, run the free
load check when `count & 4 == 4`; if the cache grew, recompute both
indices from the new mask via `indices`.  Returns the new state plus the
bucket/chain position of the stored value (the position the returned
`&mut V` points at). -/
def vacant_insert (m : IntMap V) (key : Nat) (cache_ix : Nat) (value : V) :
    IntMap V × Nat × Nat :=
  let vals := chainAt m.cache cache_ix
  let vals_ix := vals.length
  let count := m.count + 1
  let m1 : IntMap V :=
    { m with count := count, cache := m.cache.set cache_ix (vals ++ [(key, value)]) }
  let step : IntMap V × Bool :=
    if count &&& 4 == 4 then ensure_load_rate_free m1 else (m1, false)
  if step.2 then
    let (cix, vix) := indices step.1.cache step.1.mod_mask key
    (step.1, cix, vix.getD 0)
  else
    (step.1, cache_ix, vals_ix)

/-- `SealedInt::calc_index` constants of src/int.rs lines 63-69 (largest
prime below `2 ^ W` for each width). -/
def U8_PRIME_MAX : Nat := 2 ^ 8 - 1 - 4

/-- src/int.rs line 66. -/
def U16_PRIME_MAX : Nat := 2 ^ 16 - 1 - 14

/-- src/int.rs line 67. -/
def U32_PRIME_MAX : Nat := 2 ^ 32 - 1 - 4

/-- src/int.rs line 68. -/
def U64_PRIME_MAX : Nat := 2 ^ 64 - 1 - 58

/-- src/int.rs line 69. -/
def U128_PRIME_MAX : Nat := 2 ^ 128 - 1 - 158

/-- `HighestPrime for u32` (src/highest_prime.rs lines 12-17). -/
def highest_prime_u32 : Nat := 2147483647

/-- `HighestPrime for u64` (src/highest_prime.rs lines 5-10). -/
def highest_prime_u64 : Nat := 18446744073709551557

/-- Rust's `x as u64` for `x : i128` (two's complement truncation to the
low 64 bits). -/
def i128_as_u64 (x : Int) : Nat :=
  (x % 2 ^ 64).toNat

/-- `SealedInt::calc_index` for `i128` (src/int.rs lines 50-61 and 88):
cast to `u64`, then `U64_PRIME_MAX.wrapping_mul(self) & mod_mask`. -/
def i128_calc_index (x : Int) (mod_mask : Nat) : Nat :=
  U64_PRIME_MAX * i128_as_u64 x % 2 ^ 64 &&& mod_mask

/-- Modelled from the spec (section 4.1): `index = (k * PRIME_W) & mask`
where `PRIME_W` is the largest prime below `2 ^ W`; for the 64-bit engine
that is `2 ^ 64 - 59`.  Stated for comparison against the engine's
`cache_index`. -/
def spec_cache_index (mod_mask key : Nat) : Nat :=
  key * 18446744073709551557 % 2 ^ 64 &&& mod_mask

/-- A publicly observable mutating (or pure, for `get`) map operation. -/
inductive Op (V : Type) where
  | ins (key : Nat) (value : V)
  | rem (key : Nat)
  | getOp (key : Nat)
  | clr
  | ret (f : Nat → V → Bool)

/-- Run one operation against the map state (`get` does not mutate). -/
def applyOp (m : IntMap V) : Op V → IntMap V
  | Op.ins k v => (m.insert k v).1
  | Op.rem k => (m.remove k).1
  | Op.getOp _ => m
  | Op.clr => m.clear
  | Op.ret f => m.retain f

/-- Run a sequence of operations left to right. -/
def runOps (m : IntMap V) (ops : List (Op V)) : IntMap V :=
  ops.foldl applyOp m

/-- Every pair of every chain hashes (under the current mask) to the
index of the chain it is stored in. -/
def chains_ok (m : IntMap V) : Prop :=
  ∀ i, i < m.cache.length → ∀ kv ∈ chainAt m.cache i, cache_index m.mod_mask kv.1 = i

instance (m : IntMap V) : Decidable (chains_ok m) :=
  inferInstanceAs (Decidable (∀ i, i < m.cache.length → ∀ kv ∈ chainAt m.cache i,
    cache_index m.mod_mask kv.1 = i))

/-- The representation invariant of every reachable map state: the
bucket array has length `2 ^ size`, the mask is `2 ^ size - 1`, `count`
equals the total number of stored pairs, every pair sits in the chain its
key hashes to, and no key is stored twice. -/
def Inv (m : IntMap V) : Prop :=
  m.cache.length = 2 ^ m.size ∧
  m.mod_mask = 2 ^ m.size - 1 ∧
  m.count = m.cache.flatten.length ∧
  chains_ok m ∧
  (m.cache.flatten.map Prod.fst).Nodup

instance (m : IntMap V) : Decidable (Inv m) :=
  inferInstanceAs (Decidable (m.cache.length = 2 ^ m.size ∧
    m.mod_mask = 2 ^ m.size - 1 ∧
    m.count = m.cache.flatten.length ∧
    chains_ok m ∧
    (m.cache.flatten.map Prod.fst).Nodup))

/-! ### Bucket-array helper lemmas -/

theorem chainAt_nil (i : Nat) : chainAt ([] : List (List (Nat × V))) i = [] := rfl

theorem chainAt_set_self : ∀ (c : List (List (Nat × V))) (i : Nat) (w : List (Nat × V)),
    i < c.length → chainAt (c.set i w) i = w
  | [], i, _, h => absurd h (by simp)
  | _ :: _, 0, _, _ => rfl
  | _ :: c, i + 1, w, h => chainAt_set_self c i w (by simpa using h)

theorem chainAt_set_ne : ∀ (c : List (List (Nat × V))) (i j : Nat) (w : List (Nat × V)),
    j ≠ i → chainAt (c.set i w) j = chainAt c j
  | [], _, _, _, _ => rfl
  | _ :: _, 0, 0, _, h => absurd rfl h
  | _ :: _, 0, _ + 1, _, _ => rfl
  | _ :: _, _ + 1, 0, _, _ => rfl
  | _ :: c, i + 1, j + 1, w, h => chainAt_set_ne c i j w (by omega)

theorem chainAt_replicate_nil : ∀ (n i : Nat),
    chainAt (List.replicate n ([] : List (Nat × V))) i = []
  | 0, _ => rfl
  | _ + 1, 0 => rfl
  | n + 1, i + 1 => chainAt_replicate_nil n i

theorem chainAt_mem : ∀ (c : List (List (Nat × V))) (i : Nat), i < c.length →
    chainAt c i ∈ c
  | [], i, h => absurd h (by simp)
  | x :: _, 0, _ => List.mem_cons_self x _
  | _ :: c, i + 1, h => List.mem_cons_of_mem _ (chainAt_mem c i (by simpa using h))

theorem flatten_replicate_nil : ∀ n : Nat,
    (List.replicate n ([] : List (Nat × V))).flatten = []
  | 0 => rfl
  | n + 1 => flatten_replicate_nil n

theorem mem_chainAt_flatten {c : List (List (Nat × V))} {i : Nat} {kv : Nat × V}
    (hi : i < c.length) (hkv : kv ∈ chainAt c i) : kv ∈ c.flatten :=
  List.mem_flatten.mpr ⟨chainAt c i, chainAt_mem c i hi, hkv⟩

theorem flatten_pushAt_perm : ∀ (c : List (List (Nat × V))) (i : Nat) (kv : Nat × V),
    i < c.length → (pushAt c i kv).flatten.Perm (c.flatten ++ [kv])
  | [], i, _, h => absurd h (by simp)
  | x :: c, 0, kv, _ => by
    simp only [pushAt, chainAt, List.getD_eq_getElem?_getD, List.getElem?_cons_zero,
      Option.getD_some, List.set_cons_zero, List.flatten_cons, List.append_assoc]
    exact List.Perm.append_left x List.perm_append_comm
  | x :: c, i + 1, kv, h => by
    have hi : i < c.length := by simpa using h
    have hstep := flatten_pushAt_perm c i kv hi
    simp only [pushAt, chainAt] at hstep ⊢
    simp only [List.set_cons_succ, List.flatten_cons, List.getD_eq_getElem?_getD,
      List.getElem?_cons_succ, List.append_assoc]
    exact List.Perm.append_left x (by simpa [List.getD_eq_getElem?_getD] using hstep)

theorem flatten_set_perm : ∀ (c : List (List (Nat × V))) (i : Nat) (w : List (Nat × V)),
    i < c.length → ((c.set i w).flatten ++ chainAt c i).Perm (c.flatten ++ w)
  | [], i, _, h => absurd h (by simp)
  | x :: c, 0, w, _ => by
    simp only [List.set_cons_zero, List.flatten_cons, chainAt, List.getD_eq_getElem?_getD,
      List.getElem?_cons_zero, Option.getD_some, List.append_assoc]
    exact ((List.Perm.append_left w List.perm_append_comm).trans
      (List.perm_append_comm_assoc w x c.flatten)).trans
      (List.Perm.append_left x List.perm_append_comm)
  | x :: c, i + 1, w, h => by
    have hi : i < c.length := by simpa using h
    have hstep := flatten_set_perm c i w hi
    simp only [List.set_cons_succ, List.flatten_cons, chainAt, List.getD_eq_getElem?_getD,
      List.getElem?_cons_succ, List.append_assoc] at hstep ⊢
    exact List.Perm.append_left x hstep

theorem cache_index_le (mod_mask key : Nat) : cache_index mod_mask key ≤ mod_mask :=
  Nat.and_le_right

theorem foldl_push_length (mask : Nat) : ∀ (kvs : List (Nat × V)) (c : List (List (Nat × V))),
    (kvs.foldl (fun c kv => pushAt c (cache_index mask kv.1) kv) c).length = c.length
  | [], _ => rfl
  | kv :: t, c => by
    rw [List.foldl_cons, foldl_push_length mask t]
    simp [pushAt]

theorem foldl_push_chainAt (mask : Nat) : ∀ (kvs : List (Nat × V)) (c : List (List (Nat × V)))
    (i : Nat), i < c.length → mask < c.length →
    chainAt (kvs.foldl (fun c kv => pushAt c (cache_index mask kv.1) kv) c) i =
      chainAt c i ++ kvs.filter (fun kv => cache_index mask kv.1 == i)
  | [], _, _, _, _ => by simp
  | kv :: t, c, i, hi, hmask => by
    have hj : cache_index mask kv.1 < c.length :=
      Nat.lt_of_le_of_lt (cache_index_le mask kv.1) hmask
    rw [List.foldl_cons]
    rw [foldl_push_chainAt mask t (pushAt c (cache_index mask kv.1) kv) i
      (by simpa [pushAt] using hi) (by simpa [pushAt] using hmask)]
    by_cases hji : cache_index mask kv.1 = i
    · subst hji
      rw [pushAt, chainAt_set_self c _ _ hj]
      simp [List.filter_cons, List.append_assoc]
    · rw [pushAt, chainAt_set_ne c _ i _ (fun hh => hji hh.symm)]
      simp [List.filter_cons, hji]

theorem foldl_push_flatten_perm (mask : Nat) : ∀ (kvs : List (Nat × V))
    (c : List (List (Nat × V))), mask < c.length →
    ((kvs.foldl (fun c kv => pushAt c (cache_index mask kv.1) kv) c).flatten).Perm (c.flatten ++ kvs)
  | [], _, _ => by simp
  | kv :: t, c, hmask => by
    have hj : cache_index mask kv.1 < c.length :=
      Nat.lt_of_le_of_lt (cache_index_le mask kv.1) hmask
    rw [List.foldl_cons]
    have ih := foldl_push_flatten_perm mask t (pushAt c (cache_index mask kv.1) kv)
      (by simpa [pushAt] using hmask)
    have hpush := (flatten_pushAt_perm c (cache_index mask kv.1) kv hj).append_right t
    exact (ih.trans hpush).trans (by simp)

theorem rebuild_length (mask n : Nat) (kvs : List (Nat × V)) :
    (rebuild mask n kvs).length = n := by
  rw [rebuild, foldl_push_length]
  simp

theorem rebuild_chainAt (mask n : Nat) (kvs : List (Nat × V)) (i : Nat)
    (hmask : mask < n) (hi : i < n) :
    chainAt (rebuild mask n kvs) i = kvs.filter (fun kv => cache_index mask kv.1 == i) := by
  rw [rebuild, foldl_push_chainAt mask kvs _ i (by simpa using hi) (by simpa using hmask),
    chainAt_replicate_nil]
  simp

theorem rebuild_flatten_perm (mask n : Nat) (kvs : List (Nat × V)) (hmask : mask < n) :
    (rebuild mask n kvs).flatten.Perm kvs := by
  have h := foldl_push_flatten_perm mask kvs (List.replicate n ([] : List (Nat × V)))
    (by simpa using hmask)
  rw [rebuild]
  simpa [flatten_replicate_nil] using h

/-! ### `swap_remove` and first-match search -/

theorem dropLast_cons_of_ne_nil {α : Type _} (a : α) {l : List α} (h : l ≠ []) :
    (a :: l).dropLast = a :: l.dropLast := by
  cases l with
  | nil => exact absurd rfl h
  | cons b t => rfl

theorem swap_remove_cons_succ {α : Type _} (a b : α) (t : List α) (i : Nat) :
    swap_remove (a :: b :: t) (i + 1) = a :: swap_remove (b :: t) i := by
  have hne : (b :: t : List α) ≠ [] := List.cons_ne_nil b t
  have hset : (b :: t).set i ((b :: t).getLast hne) ≠ [] := by
    intro hnil
    have := congrArg List.length hnil
    simp at this
  rw [swap_remove, swap_remove, List.getLast_cons hne, List.set_cons_succ,
    dropLast_cons_of_ne_nil a hset]

theorem swap_remove_perm {α : Type _} : ∀ (l : List α) (i : Nat) (h : i < l.length),
    (swap_remove l i ++ [l.get ⟨i, h⟩]).Perm l
  | [], _, h => absurd h (by simp)
  | [a], 0, _ => by simp [swap_remove]
  | [a], i + 1, h => by simp at h
  | a :: b :: t, 0, _ => by
    have hne : (b :: t : List α) ≠ [] := List.cons_ne_nil b t
    have hback : (b :: t).dropLast ++ [(b :: t).getLast hne] = b :: t :=
      List.dropLast_append_getLast hne
    rw [swap_remove, List.getLast_cons hne, List.set_cons_zero,
      dropLast_cons_of_ne_nil _ (List.cons_ne_nil b t)]
    refine (List.perm_append_singleton a _).trans ?_
    refine List.Perm.trans (List.Perm.cons a
      (((List.perm_append_singleton ((b :: t).getLast hne) _).symm))) ?_
    rw [hback]
  | a :: b :: t, i + 1, h => by
    have hi : i < (b :: t).length := by simpa using h
    rw [swap_remove_cons_succ a b t i]
    show ((a :: swap_remove (b :: t) i) ++ [(b :: t).get ⟨i, hi⟩]).Perm (a :: b :: t)
    rw [List.cons_append]
    exact (swap_remove_perm (b :: t) i hi).cons a

theorem find_first_idx_eq_none {α : Type _} (p : α → Bool) :
    ∀ (l : List α), find_first_idx p l = none ↔ ∀ x ∈ l, ¬p x
  | [] => by simp [find_first_idx]
  | a :: l => by
    by_cases hpa : p a
    · simp [find_first_idx, hpa]
    · simp [find_first_idx, hpa, Option.map_eq_none', find_first_idx_eq_none p l]

theorem find_first_idx_some {α : Type _} (p : α → Bool) :
    ∀ (l : List α) (i : Nat), find_first_idx p l = some i →
      ∃ x, l[i]? = some x ∧ p x = true
  | [], _, h => by simp [find_first_idx] at h
  | a :: l, i, h => by
    by_cases hpa : p a
    · rw [find_first_idx, if_pos hpa] at h
      cases h
      exact ⟨a, by simp, hpa⟩
    · rw [find_first_idx, if_neg hpa] at h
      rw [Option.map_eq_some'] at h
      obtain ⟨j, hj, hji⟩ := h
      obtain ⟨x, hx, hpx⟩ := find_first_idx_some p l j hj
      exact ⟨x, by rw [← hji]; simpa using hx, hpx⟩

theorem find_first_idx_mem {α : Type _} (p : α → Bool) :
    ∀ (l : List α) (x : α), x ∈ l → p x = true → ∃ i, find_first_idx p l = some i
  | [], _, hx, _ => absurd hx (by simp)
  | a :: l, x, hx, hpx => by
    by_cases hpa : p a
    · exact ⟨0, by rw [find_first_idx, if_pos hpa]⟩
    · have hxl : x ∈ l := by
        cases List.mem_cons.mp hx with
        | inl he => exact absurd (he ▸ hpx) (by simpa using hpa)
        | inr ht => exact ht
      obtain ⟨j, hj⟩ := find_first_idx_mem p l x hxl hpx
      exact ⟨j + 1, by rw [find_first_idx, if_neg hpa, hj]; rfl⟩

theorem getElem?_some_lt {α : Type _} {l : List α} {i : Nat} {x : α}
    (h : l[i]? = some x) : i < l.length := by
  by_contra hge
  rw [List.getElem?_eq_none (Nat.le_of_not_lt hge)] at h
  exact Option.noConfusion h

/-! ### Unique keys and `get` characterization -/

theorem keys_unique : ∀ {l : List (Nat × V)}, (l.map Prod.fst).Nodup →
    ∀ {k : Nat} {a b : V}, (k, a) ∈ l → (k, b) ∈ l → a = b := by
  intro l
  induction l with
  | nil => intro _ k a b ha; exact absurd ha (by simp)
  | cons x t ih =>
    intro hnd k a b ha hb
    rw [List.map_cons, List.nodup_cons] at hnd
    cases List.mem_cons.mp ha with
    | inl hax =>
      cases List.mem_cons.mp hb with
      | inl hbx => rw [← hax] at hbx; exact (Prod.mk.injEq _ _ _ _ ▸ hbx).2.symm
      | inr hbt =>
        exact absurd (List.mem_map.mpr ⟨(k, b), hbt, by rw [← hax]⟩) hnd.1
    | inr hat =>
      cases List.mem_cons.mp hb with
      | inl hbx =>
        exact absurd (List.mem_map.mpr ⟨(k, a), hat, by rw [← hbx]⟩) hnd.1
      | inr hbt => exact ih hnd.2 hat hbt

theorem chainAt_eq_get {c : List (List (Nat × V))} {i : Nat} (h : i < c.length) :
    chainAt c i = c.get ⟨i, h⟩ := by
  rw [chainAt, List.getD_eq_getElem?_getD, List.getElem?_eq_getElem h]
  rfl

theorem get_eq_find (m : IntMap V) (key : Nat) :
    m.get key = ((chainAt m.cache (cache_index m.mod_mask key)).find?
      (fun kv => kv.1 == key)).map (fun kv => kv.2) := by
  by_cases h : 0 < (chainAt m.cache (cache_index m.mod_mask key)).length
  · simp only [IntMap.get, if_pos h]
  · have he : chainAt m.cache (cache_index m.mod_mask key) = [] :=
      List.eq_nil_of_length_eq_zero (Nat.eq_zero_of_not_pos h)
    simp [IntMap.get, he]

theorem cache_index_lt {m : IntMap V} (h : Inv m) (key : Nat) :
    cache_index m.mod_mask key < m.cache.length := by
  rw [h.1, h.2.1]
  exact Nat.lt_of_le_of_lt (cache_index_le _ key)
    (Nat.sub_lt (Nat.pos_pow_of_pos m.size (by omega)) (by omega))

theorem get_some_iff {m : IntMap V} (h : Inv m) (key : Nat) (v : V) :
    m.get key = some v ↔ (key, v) ∈ m.cache.flatten := by
  have hlt := cache_index_lt h key
  constructor
  · intro hg
    rw [get_eq_find] at hg
    obtain ⟨kv, hfind, hv⟩ := Option.map_eq_some'.mp hg
    have hk : kv.1 = key := by simpa using List.find?_some hfind
    have hmem := mem_chainAt_flatten hlt (List.mem_of_find?_eq_some hfind)
    have : kv = (key, v) := by
      cases kv
      simp only at hk hv
      rw [hk, hv]
    exact this ▸ hmem
  · intro hmem
    obtain ⟨chain, hchain, hkv⟩ := List.mem_flatten.mp hmem
    obtain ⟨⟨j, hj⟩, hcj⟩ := List.mem_iff_get.mp hchain
    have hcj' : chainAt m.cache j = chain := by rw [chainAt_eq_get hj, hcj]
    have hidx : cache_index m.mod_mask key = j :=
      h.2.2.2.1 j hj (key, v) (hcj' ▸ hkv)
    have hmemc : (key, v) ∈ chainAt m.cache (cache_index m.mod_mask key) := by
      rw [hidx, hcj']
      exact hkv
    cases hf : (chainAt m.cache (cache_index m.mod_mask key)).find?
        (fun kv => kv.1 == key) with
    | none =>
      exact absurd (by simp) ((List.find?_eq_none.mp hf) (key, v) hmemc)
    | some kv' =>
      have hk' : kv'.1 = key := by simpa using List.find?_some hf
      have hmem' := mem_chainAt_flatten hlt (List.mem_of_find?_eq_some hf)
      have hkv'' : (key, kv'.2) ∈ m.cache.flatten := by
        have : kv' = (key, kv'.2) := by
          cases kv'
          simp only at hk'
          rw [hk']
        exact this ▸ hmem'
      have hveq : kv'.2 = v := keys_unique h.2.2.2.2 hkv'' hmem
      rw [get_eq_find, hf, Option.map_some', hveq]

theorem get_none_iff {m : IntMap V} (h : Inv m) (key : Nat) :
    m.get key = none ↔ ∀ v, (key, v) ∉ m.cache.flatten := by
  constructor
  · intro hg v hv
    rw [(get_some_iff h key v).mpr hv] at hg
    exact Option.noConfusion hg
  · intro hall
    cases hg : m.get key with
    | none => rfl
    | some w => exact absurd ((get_some_iff h key w).mp hg) (hall w)

theorem key_not_mem_keys {m : IntMap V} (h : Inv m) {key : Nat}
    (habs : m.get key = none) : key ∉ m.cache.flatten.map Prod.fst := by
  intro hk
  obtain ⟨kv, hkv, hfst⟩ := List.mem_map.mp hk
  have : (key, kv.2) ∈ m.cache.flatten := by
    have : kv = (key, kv.2) := by
      cases kv
      simp only at hfst
      rw [hfst]
    exact this ▸ hkv
  exact (get_none_iff h key).mp habs kv.2 this

theorem get_eq_of_flatten_perm {m' m : IntMap V} (h' : Inv m') (h : Inv m)
    (hp : m'.cache.flatten.Perm m.cache.flatten) (key : Nat) :
    m'.get key = m.get key := by
  cases hg : m.get key with
  | some v =>
    exact (get_some_iff h' key v).mpr (hp.mem_iff.mpr ((get_some_iff h key v).mp hg))
  | none =>
    cases hg' : m'.get key with
    | none => rfl
    | some w =>
      have := hp.mem_iff.mp ((get_some_iff h' key w).mp hg')
      rw [(get_some_iff h key w).mpr this] at hg
      exact Option.noConfusion hg

theorem get_after_append {m' m : IntMap V} (h' : Inv m') (h : Inv m) {k : Nat} {v : V}
    (hp : m'.cache.flatten.Perm (m.cache.flatten ++ [(k, v)])) :
    m'.get k = some v ∧ ∀ k2, k2 ≠ k → m'.get k2 = m.get k2 := by
  refine ⟨?_, ?_⟩
  · exact (get_some_iff h' k v).mpr (hp.mem_iff.mpr (by simp))
  · intro k2 hne
    cases hg : m.get k2 with
    | some w =>
      have : (k2, w) ∈ m'.cache.flatten :=
        hp.mem_iff.mpr (List.mem_append_left _ ((get_some_iff h k2 w).mp hg))
      exact (get_some_iff h' k2 w).mpr this
    | none =>
      cases hg' : m'.get k2 with
      | none => rfl
      | some u =>
        have hmem := hp.mem_iff.mp ((get_some_iff h' k2 u).mp hg')
        cases List.mem_append.mp hmem with
        | inl hl =>
          rw [(get_some_iff h k2 u).mpr hl] at hg
          exact Option.noConfusion hg
        | inr hr =>
          have : k2 = k := by
            have := List.mem_singleton.mp hr
            exact (Prod.mk.injEq _ _ _ _ ▸ this).1
          exact absurd this hne

theorem get_after_erase {m' m : IntMap V} (h' : Inv m') (h : Inv m) {k : Nat} {v : V}
    (hp : (m'.cache.flatten ++ [(k, v)]).Perm m.cache.flatten) :
    m'.get k = none ∧ ∀ k2, k2 ≠ k → m'.get k2 = m.get k2 := by
  have hnodup : (m'.cache.flatten.map Prod.fst ++ [k]).Nodup := by
    have := (hp.map Prod.fst).nodup_iff.mpr h.2.2.2.2
    simpa using this
  have hknot : k ∉ m'.cache.flatten.map Prod.fst := by
    intro hk
    exact (List.nodup_append.mp hnodup).2.2 hk (by simp)
  refine ⟨?_, ?_⟩
  · rw [get_none_iff h' k]
    intro v' hv'
    exact hknot (List.mem_map.mpr ⟨(k, v'), hv', rfl⟩)
  · intro k2 hne
    cases hg : m.get k2 with
    | some w =>
      have hmem := hp.mem_iff.mpr ((get_some_iff h k2 w).mp hg)
      cases List.mem_append.mp hmem with
      | inl hl => exact (get_some_iff h' k2 w).mpr hl
      | inr hr =>
        have : k2 = k := by
          have := List.mem_singleton.mp hr
          exact (Prod.mk.injEq _ _ _ _ ▸ this).1
        exact absurd this hne
    | none =>
      cases hg' : m'.get k2 with
      | none => rfl
      | some u =>
        have : (k2, u) ∈ m.cache.flatten :=
          hp.mem_iff.mp (List.mem_append_left _ ((get_some_iff h' k2 u).mp hg'))
        rw [(get_some_iff h k2 u).mpr this] at hg
        exact Option.noConfusion hg

/-! ### Rehash and load-check preservation -/

theorem flatten_reverse_map_reverse_perm {α : Type _} : ∀ (c : List (List α)),
    ((c.reverse.map List.reverse).flatten).Perm c.flatten
  | [] => by simp
  | x :: c => by
    simp only [List.reverse_cons, List.map_append, List.map_cons, List.map_nil,
      List.flatten_append, List.flatten_cons, List.flatten_nil, List.append_nil]
    refine List.perm_append_comm.trans ?_
    exact List.Perm.append (List.reverse_perm x) (flatten_reverse_map_reverse_perm c)

theorem rehash_with_pkg {m : IntMap V} (h : Inv m) {kvs : List (Nat × V)}
    (hkvs : kvs.Perm m.cache.flatten) :
    Inv (rehash_with m kvs) ∧
    (rehash_with m kvs).cache.flatten.Perm m.cache.flatten ∧
    (rehash_with m kvs).count = m.count ∧
    m.cache.length ≤ (rehash_with m kvs).cache.length ∧
    (rehash_with m kvs).size = m.size + 1 := by
  have hpos : 0 < 2 ^ (m.size + 1) := Nat.pos_pow_of_pos _ (by omega)
  have hmask : 2 ^ (m.size + 1) - 1 < 2 ^ (m.size + 1) := Nat.sub_lt hpos (by omega)
  have hflat : (rebuild (2 ^ (m.size + 1) - 1) (2 ^ (m.size + 1)) kvs).flatten.Perm kvs :=
    rebuild_flatten_perm _ _ kvs hmask
  have hperm : (rehash_with m kvs).cache.flatten.Perm m.cache.flatten := hflat.trans hkvs
  have hlen : (rehash_with m kvs).cache.length = 2 ^ (m.size + 1) :=
    rebuild_length _ _ kvs
  refine ⟨⟨hlen, rfl, ?_, ?_, ?_⟩, hperm, rfl, ?_, rfl⟩
  · rw [show (rehash_with m kvs).count = m.count from rfl, h.2.2.1, hperm.length_eq]
  · intro i hi kv hkv
    rw [hlen] at hi
    rw [show (rehash_with m kvs).cache = rebuild (2 ^ (m.size + 1) - 1)
        (2 ^ (m.size + 1)) kvs from rfl,
      rebuild_chainAt _ _ kvs i hmask hi] at hkv
    exact by simpa using (List.mem_filter.mp hkv).2
  · exact (hperm.map Prod.fst).nodup_iff.mpr h.2.2.2.2
  · rw [h.1, hlen]
    exact Nat.pow_le_pow_right (by omega) (by omega)

theorem increase_cache_pkg {m : IntMap V} (h : Inv m) :
    Inv m.increase_cache ∧ m.increase_cache.cache.flatten.Perm m.cache.flatten ∧
    m.increase_cache.count = m.count ∧
    m.cache.length ≤ m.increase_cache.cache.length ∧
    m.increase_cache.size = m.size + 1 :=
  rehash_with_pkg h (List.Perm.refl _)

theorem increase_cache_free_pkg {m : IntMap V} (h : Inv m) :
    Inv (increase_cache_free m) ∧
    (increase_cache_free m).cache.flatten.Perm m.cache.flatten ∧
    (increase_cache_free m).count = m.count ∧
    m.cache.length ≤ (increase_cache_free m).cache.length ∧
    (increase_cache_free m).size = m.size + 1 :=
  rehash_with_pkg h (flatten_reverse_map_reverse_perm m.cache)

theorem ensure_go_pkg : ∀ (fuel : Nat) (m : IntMap V), Inv m →
    Inv (ensure_go fuel m) ∧ (ensure_go fuel m).cache.flatten.Perm m.cache.flatten ∧
    (ensure_go fuel m).count = m.count ∧
    m.cache.length ≤ (ensure_go fuel m).cache.length
  | 0, m, h => ⟨h, List.Perm.refl _, rfl, Nat.le_refl _⟩
  | fuel + 1, m, h => by
    rw [ensure_go]
    by_cases hc : 70 < m.count * 100 / m.cache.length
    · rw [if_pos hc]
      have hstep := increase_cache_pkg h
      have ih := ensure_go_pkg fuel m.increase_cache hstep.1
      exact ⟨ih.1, ih.2.1.trans hstep.2.1, ih.2.2.1.trans hstep.2.2.1,
        Nat.le_trans hstep.2.2.2.1 ih.2.2.2⟩
    · rw [if_neg hc]
      exact ⟨h, List.Perm.refl _, rfl, Nat.le_refl _⟩

theorem ensure_go_free_pkg : ∀ (fuel : Nat) (m : IntMap V), Inv m →
    Inv (ensure_go_free fuel m) ∧
    (ensure_go_free fuel m).cache.flatten.Perm m.cache.flatten ∧
    (ensure_go_free fuel m).count = m.count ∧
    m.cache.length ≤ (ensure_go_free fuel m).cache.length
  | 0, m, h => ⟨h, List.Perm.refl _, rfl, Nat.le_refl _⟩
  | fuel + 1, m, h => by
    rw [ensure_go_free]
    by_cases hc : 70 < m.count * 100 / m.cache.length
    · rw [if_pos hc]
      have hstep := increase_cache_free_pkg h
      have ih := ensure_go_free_pkg fuel (increase_cache_free m) hstep.1
      exact ⟨ih.1, ih.2.1.trans hstep.2.1, ih.2.2.1.trans hstep.2.2.1,
        Nat.le_trans hstep.2.2.2.1 ih.2.2.2⟩
    · rw [if_neg hc]
      exact ⟨h, List.Perm.refl _, rfl, Nat.le_refl _⟩

theorem ensure_go_exits : ∀ (fuel : Nat) (m : IntMap V), Inv m →
    100 * m.count ≤ 70 * 2 ^ (m.size + fuel) →
    (ensure_go fuel m).count * 100 / (ensure_go fuel m).cache.length ≤ 70
  | 0, m, h, hb => by
    rw [Nat.add_zero] at hb
    rw [ensure_go, h.1]
    have hpos : 0 < 2 ^ m.size := Nat.pos_pow_of_pos _ (by omega)
    calc m.count * 100 / 2 ^ m.size ≤ 70 * 2 ^ m.size / 2 ^ m.size :=
          Nat.div_le_div_right (by omega)
      _ = 70 := Nat.mul_div_cancel 70 hpos
  | fuel + 1, m, h, hb => by
    rw [ensure_go]
    by_cases hc : 70 < m.count * 100 / m.cache.length
    · rw [if_pos hc]
      refine ensure_go_exits fuel m.increase_cache (increase_cache_pkg h).1 ?_
      have hsz : m.increase_cache.size = m.size + 1 := rfl
      have hct : m.increase_cache.count = m.count := rfl
      rw [hsz, hct]
      have : m.size + 1 + fuel = m.size + (fuel + 1) := by omega
      rw [this]
      exact hb
    · rw [if_neg hc]
      exact Nat.le_of_not_lt hc

theorem ensure_load_rate_load {m : IntMap V} (h : Inv m) :
    (m.ensure_load_rate).count * 100 / (m.ensure_load_rate).cache.length ≤ 70 := by
  refine ensure_go_exits (m.count + 2) m h ?_
  have h1 : m.count < 2 ^ m.count := Nat.lt_two_pow m.count
  have h2 : 2 ^ (m.count + 2) ≤ 2 ^ (m.size + (m.count + 2)) :=
    Nat.pow_le_pow_right (by omega) (by omega)
  have h3 : 2 ^ (m.count + 2) = 2 ^ m.count * 4 := by
    rw [Nat.pow_add]
  omega

theorem ensure_load_rate_pkg {m : IntMap V} (h : Inv m) :
    Inv m.ensure_load_rate ∧ m.ensure_load_rate.cache.flatten.Perm m.cache.flatten ∧
    m.ensure_load_rate.count = m.count ∧
    m.cache.length ≤ m.ensure_load_rate.cache.length :=
  ensure_go_pkg (m.count + 2) m h

/-! ### Insert -/

theorem mem_chain_of_mem_flatten {m : IntMap V} (h : Inv m) {k : Nat} {v : V}
    (hmem : (k, v) ∈ m.cache.flatten) :
    (k, v) ∈ chainAt m.cache (cache_index m.mod_mask k) := by
  obtain ⟨chain, hchain, hkv⟩ := List.mem_flatten.mp hmem
  obtain ⟨⟨j, hj⟩, hcj⟩ := List.mem_iff_get.mp hchain
  have hcj' : chainAt m.cache j = chain := by rw [chainAt_eq_get hj, hcj]
  have hidx : cache_index m.mod_mask k = j := h.2.2.2.1 j hj (k, v) (hcj' ▸ hkv)
  rw [hidx, hcj']
  exact hkv

/-- The state after the unconditional part of an absent-key insertion
(`count += 1; vals.push((key, value))`), shared by `IntMap::insert` and
`VacantEntry::insert`. -/
def push_pair (m : IntMap V) (key : Nat) (value : V) : IntMap V :=
  { m with
    count := m.count + 1
    cache := pushAt m.cache (cache_index m.mod_mask key) (key, value) }

theorem push_pair_pkg {m : IntMap V} (h : Inv m) {key : Nat} (value : V)
    (habs : m.get key = none) :
    Inv (push_pair m key value) ∧
    (push_pair m key value).cache.flatten.Perm (m.cache.flatten ++ [(key, value)]) ∧
    (push_pair m key value).count = m.count + 1 ∧
    (push_pair m key value).cache.length = m.cache.length := by
  have hlt := cache_index_lt h key
  have hperm : (push_pair m key value).cache.flatten.Perm
      (m.cache.flatten ++ [(key, value)]) :=
    flatten_pushAt_perm m.cache (cache_index m.mod_mask key) (key, value) hlt
  have hlen : (push_pair m key value).cache.length = m.cache.length := by
    show (pushAt m.cache (cache_index m.mod_mask key) (key, value)).length = _
    simp [pushAt]
  refine ⟨⟨?_, h.2.1, ?_, ?_, ?_⟩, hperm, rfl, hlen⟩
  · rw [hlen]
    exact h.1
  · show m.count + 1 = (push_pair m key value).cache.flatten.length
    rw [hperm.length_eq]
    simp [h.2.2.1]
  · intro i hi kv hkv
    rw [hlen] at hi
    show cache_index m.mod_mask kv.1 = i
    by_cases hix : i = cache_index m.mod_mask key
    · subst hix
      have hch : chainAt (push_pair m key value).cache (cache_index m.mod_mask key) =
          chainAt m.cache (cache_index m.mod_mask key) ++ [(key, value)] := by
        show chainAt (pushAt m.cache (cache_index m.mod_mask key) (key, value)) _ = _
        rw [pushAt, chainAt_set_self _ _ _ hlt]
      rw [hch] at hkv
      cases List.mem_append.mp hkv with
      | inl hold => exact h.2.2.2.1 _ hlt kv hold
      | inr hnew =>
        have he : kv = (key, value) := List.mem_singleton.mp hnew
        subst he
        rfl
    · have hch : chainAt (push_pair m key value).cache i = chainAt m.cache i := by
        show chainAt (pushAt m.cache (cache_index m.mod_mask key) (key, value)) i = _
        rw [pushAt, chainAt_set_ne _ _ _ _ hix]
      rw [hch] at hkv
      exact h.2.2.2.1 i hi kv hkv
  · refine (hperm.map Prod.fst).nodup_iff.mpr ?_
    rw [List.map_append]
    refine List.nodup_append.mpr ⟨h.2.2.2.2, by simp, ?_⟩
    intro a ha hb
    have : a = key := by simpa using hb
    exact key_not_mem_keys h habs (this ▸ ha)

theorem chain_any_eq_false {m : IntMap V} (h : Inv m) {key : Nat}
    (habs : m.get key = none) :
    (chainAt m.cache (cache_index m.mod_mask key)).any (fun kv => kv.1 == key) = false := by
  rw [List.any_eq_false]
  intro kv hkv
  simp only [beq_iff_eq]
  intro hk
  have hlt := cache_index_lt h key
  have : (key, kv.2) ∈ m.cache.flatten := by
    have hkv' : kv = (key, kv.2) := by
      cases kv
      simp only at hk
      rw [hk]
    exact hkv' ▸ mem_chainAt_flatten hlt hkv
  exact (get_none_iff h key).mp habs kv.2 this

theorem chain_any_eq_true {m : IntMap V} (h : Inv m) {key : Nat} {w : V}
    (hw : m.get key = some w) :
    (chainAt m.cache (cache_index m.mod_mask key)).any (fun kv => kv.1 == key) = true := by
  rw [List.any_eq_true]
  exact ⟨(key, w), mem_chain_of_mem_flatten h ((get_some_iff h key w).mp hw), by simp⟩

theorem insert_present {m : IntMap V} (h : Inv m) {key : Nat} {w : V}
    (hw : m.get key = some w) (value : V) :
    m.insert key value = (m, false) := by
  have hany := chain_any_eq_true h hw
  simp [IntMap.insert, IntMap.calc_index, hany]

theorem insert_eq_of_absent {m : IntMap V} (h : Inv m) {key : Nat} (value : V)
    (habs : m.get key = none) :
    m.insert key value =
      if (m.count + 1) &&& 4 == 4 then ((push_pair m key value).ensure_load_rate, true)
      else (push_pair m key value, true) := by
  have hany := chain_any_eq_false h habs
  simp only [IntMap.insert, IntMap.calc_index, hany, Bool.false_eq_true, if_false]
  rfl

theorem insert_absent {m : IntMap V} (h : Inv m) {key : Nat} (value : V)
    (habs : m.get key = none) :
    (m.insert key value).2 = true ∧ Inv (m.insert key value).1 ∧
    (m.insert key value).1.count = m.count + 1 ∧
    (m.insert key value).1.cache.flatten.Perm (m.cache.flatten ++ [(key, value)]) ∧
    m.cache.length ≤ (m.insert key value).1.cache.length := by
  rw [insert_eq_of_absent h value habs]
  have hpush := push_pair_pkg h value habs
  by_cases hc : (m.count + 1) &&& 4 == 4
  · rw [if_pos hc]
    have hens := ensure_load_rate_pkg hpush.1
    refine ⟨rfl, hens.1, ?_, hens.2.1.trans hpush.2.1, ?_⟩
    · rw [hens.2.2.1, hpush.2.2.1]
    · calc m.cache.length = (push_pair m key value).cache.length := hpush.2.2.2.symm
        _ ≤ _ := hens.2.2.2
  · rw [if_neg hc]
    exact ⟨rfl, hpush.1, hpush.2.2.1, hpush.2.1, Nat.le_of_eq hpush.2.2.2.symm⟩

/-! ### Remove -/

theorem remove_absent {m : IntMap V} (h : Inv m) {key : Nat}
    (habs : m.get key = none) :
    m.remove key = (m, none) := by
  have hnone : find_first_idx (fun kv => kv.1 == key)
      (chainAt m.cache (cache_index m.mod_mask key)) = none := by
    rw [find_first_idx_eq_none]
    intro kv hkv
    have := chain_any_eq_false h habs
    rw [List.any_eq_false] at this
    exact this kv hkv
  simp [IntMap.remove, IntMap.calc_index, hnone]

theorem multiset_cancel_aux {α : Type _} {A C F S X : Multiset α}
    (e1 : A + C = F + S) (e2 : S + X = C) : A + X = F := by
  have h3 : A + X + S = F + S := by
    rw [add_assoc, add_comm X S, e2]
    exact e1
  exact add_right_cancel h3

theorem remove_present {m : IntMap V} (h : Inv m) {key : Nat} {v : V}
    (hv : m.get key = some v) :
    (m.remove key).2 = some v ∧ Inv (m.remove key).1 ∧
    (m.remove key).1.count + 1 = m.count ∧
    ((m.remove key).1.cache.flatten ++ [(key, v)]).Perm m.cache.flatten ∧
    (m.remove key).1.cache.length = m.cache.length := by
  have hlt := cache_index_lt h key
  have hmemc := mem_chain_of_mem_flatten h ((get_some_iff h key v).mp hv)
  obtain ⟨i, hi⟩ := find_first_idx_mem (fun kv => kv.1 == key) _ (key, v) hmemc (by simp)
  obtain ⟨x, hgx, hpx⟩ := find_first_idx_some _ _ i hi
  have hixlt : i < (chainAt m.cache (cache_index m.mod_mask key)).length :=
    getElem?_some_lt hgx
  have hxk : x.1 = key := by simpa using hpx
  have hxmem : x ∈ chainAt m.cache (cache_index m.mod_mask key) :=
    List.getElem?_mem hgx
  have hxflat : (key, x.2) ∈ m.cache.flatten := by
    have hx' : x = (key, x.2) := by
      cases x
      simp only at hxk
      rw [hxk]
    exact hx' ▸ mem_chainAt_flatten hlt hxmem
  have hx2 : x.2 = v := keys_unique h.2.2.2.2 hxflat ((get_some_iff h key v).mp hv)
  have hxv : x = (key, v) := by
    cases x
    simp only at hxk hx2
    rw [hxk, hx2]
  have hrem : m.remove key =
      ({ m with
         count := m.count - 1
         cache := m.cache.set (cache_index m.mod_mask key)
           (swap_remove (chainAt m.cache (cache_index m.mod_mask key)) i) }, some x.2) := by
    simp only [IntMap.remove, IntMap.calc_index, hi, hgx]
  -- the chain-level and flatten-level permutations
  have hgetx : (chainAt m.cache (cache_index m.mod_mask key)).get ⟨i, hixlt⟩ = x := by
    have := List.getElem?_eq_some.mp hgx
    obtain ⟨hh, hx⟩ := this
    rw [List.get_eq_getElem]
    exact hx
  have hchain : ((swap_remove (chainAt m.cache (cache_index m.mod_mask key)) i) ++
      [x]).Perm (chainAt m.cache (cache_index m.mod_mask key)) := by
    have := swap_remove_perm (chainAt m.cache (cache_index m.mod_mask key)) i hixlt
    rw [hgetx] at this
    exact this
  have hset := flatten_set_perm m.cache (cache_index m.mod_mask key)
    (swap_remove (chainAt m.cache (cache_index m.mod_mask key)) i) hlt
  -- cancel through multisets
  have hflatperm : (((m.cache.set (cache_index m.mod_mask key)
      (swap_remove (chainAt m.cache (cache_index m.mod_mask key)) i)).flatten) ++
      [x]).Perm m.cache.flatten := by
    rw [← Multiset.coe_eq_coe, ← Multiset.coe_add]
    refine multiset_cancel_aux (C := ((chainAt m.cache (cache_index m.mod_mask key) :
      List (Nat × V)) : Multiset (Nat × V)))
      (S := ((swap_remove (chainAt m.cache (cache_index m.mod_mask key)) i :
        List (Nat × V)) : Multiset (Nat × V))) ?_ ?_
    · rw [Multiset.coe_add, Multiset.coe_add]
      exact Multiset.coe_eq_coe.mpr hset
    · rw [Multiset.coe_add]
      exact Multiset.coe_eq_coe.mpr hchain
  have hlenF : (m.cache.set (cache_index m.mod_mask key)
      (swap_remove (chainAt m.cache (cache_index m.mod_mask key)) i)).flatten.length + 1 =
      m.cache.flatten.length := by
    have := hflatperm.length_eq
    simpa using this
  have hcount := h.2.2.1
  rw [hrem]
  refine ⟨by rw [hx2], ⟨?_, h.2.1, ?_, ?_, ?_⟩, ?_, ?_, by simp⟩
  · simpa using h.1
  · simp only
    omega
  · intro j hj kv hkv
    simp only at hkv hj ⊢
    rw [List.length_set] at hj
    by_cases hjix : j = cache_index m.mod_mask key
    · subst hjix
      rw [chainAt_set_self _ _ _ hlt] at hkv
      have hkvc : kv ∈ chainAt m.cache (cache_index m.mod_mask key) :=
        hchain.subset (List.mem_append_left _ hkv)
      exact h.2.2.2.1 _ hlt kv hkvc
    · rw [chainAt_set_ne _ _ _ _ hjix] at hkv
      exact h.2.2.2.1 j hj kv hkv
  · have hnd := (hflatperm.map Prod.fst).nodup_iff.mpr h.2.2.2.2
    rw [List.map_append] at hnd
    exact hnd.of_append_left
  · simp only
    omega
  · rw [hxv] at hflatperm
    exact hflatperm

/-! ### Clear, retain, and operation sequences -/

theorem flatten_map_nil : ∀ (c : List (List (Nat × V))),
    (c.map (fun _ => ([] : List (Nat × V)))).flatten = []
  | [] => rfl
  | _ :: c => by simp [flatten_map_nil c]

theorem chainAt_map_nil : ∀ (c : List (List (Nat × V))) (i : Nat),
    chainAt (c.map (fun _ => ([] : List (Nat × V)))) i = []
  | [], _ => rfl
  | _ :: _, 0 => rfl
  | _ :: c, i + 1 => chainAt_map_nil c i

theorem clear_pkg {m : IntMap V} (h : Inv m) :
    Inv m.clear ∧ m.clear.cache.length = m.cache.length := by
  refine ⟨⟨?_, h.2.1, ?_, ?_, ?_⟩, by simp [IntMap.clear]⟩
  · show (m.cache.map _).length = 2 ^ m.size
    simpa using h.1
  · show (0 : Nat) = (m.cache.map (fun _ => [])).flatten.length
    rw [flatten_map_nil]
    rfl
  · intro i hi kv hkv
    rw [show chainAt m.clear.cache i =
      chainAt (m.cache.map (fun _ => [])) i from rfl, chainAt_map_nil] at hkv
    exact absurd hkv (by simp)
  · show ((m.cache.map (fun _ => [])).flatten.map Prod.fst).Nodup
    rw [flatten_map_nil]
    simp

theorem filter_not_length {α : Type _} (p : α → Bool) : ∀ l : List α,
    (l.filter p).length + (l.filter (fun x => !p x)).length = l.length
  | [] => rfl
  | a :: l => by
    have := filter_not_length p l
    by_cases hpa : p a <;> simp [List.filter_cons, hpa] <;> omega

theorem retain_count_aux (f : Nat → V → Bool) : ∀ (c : List (List (Nat × V))),
    ((c.map (fun vals => vals.filter (fun kv => f kv.1 kv.2))).flatten).length +
      (c.map (fun vals => (vals.filter (fun kv => !f kv.1 kv.2)).length)).sum =
      c.flatten.length
  | [] => rfl
  | x :: c => by
    simp only [List.map_cons, List.flatten_cons, List.length_append, List.sum_cons]
    have h1 := filter_not_length (fun kv => f kv.1 kv.2) x
    have h2 := retain_count_aux f c
    omega

theorem flatten_map_filter_sublist (f : Nat → V → Bool) : ∀ (c : List (List (Nat × V))),
    ((c.map (fun vals => vals.filter (fun kv => f kv.1 kv.2))).flatten).Sublist c.flatten
  | [] => List.Sublist.refl _
  | x :: c => by
    simp only [List.map_cons, List.flatten_cons]
    exact List.Sublist.append (List.filter_sublist x) (flatten_map_filter_sublist f c)

theorem chainAt_map_filter (f : Nat → V → Bool) : ∀ (c : List (List (Nat × V))) (i : Nat),
    chainAt (c.map (fun vals => vals.filter (fun kv => f kv.1 kv.2))) i =
      (chainAt c i).filter (fun kv => f kv.1 kv.2)
  | [], _ => rfl
  | _ :: _, 0 => rfl
  | _ :: c, i + 1 => chainAt_map_filter f c i

theorem retain_pkg {m : IntMap V} (h : Inv m) (f : Nat → V → Bool) :
    Inv (m.retain f) ∧ (m.retain f).cache.length = m.cache.length := by
  have hcnt := retain_count_aux f m.cache
  have hc := h.2.2.1
  refine ⟨⟨?_, h.2.1, ?_, ?_, ?_⟩, by simp [IntMap.retain]⟩
  · show (m.cache.map _).length = 2 ^ m.size
    simpa using h.1
  · show m.count - (m.cache.map (fun vals =>
      (vals.filter (fun kv => !f kv.1 kv.2)).length)).sum =
      ((m.cache.map (fun vals => vals.filter (fun kv => f kv.1 kv.2))).flatten).length
    omega
  · intro i hi kv hkv
    have hi' : i < m.cache.length := by
      simpa [IntMap.retain] using hi
    rw [show chainAt (m.retain f).cache i =
        chainAt (m.cache.map (fun vals => vals.filter (fun kv => f kv.1 kv.2))) i from rfl,
      chainAt_map_filter] at hkv
    exact h.2.2.2.1 i hi' kv (List.mem_filter.mp hkv).1
  · show (((m.cache.map (fun vals =>
      vals.filter (fun kv => f kv.1 kv.2))).flatten).map Prod.fst).Nodup
    exact h.2.2.2.2.sublist ((flatten_map_filter_sublist f m.cache).map Prod.fst)

theorem applyOp_pkg {m : IntMap V} (h : Inv m) (op : Op V) :
    Inv (applyOp m op) ∧ m.cache.length ≤ (applyOp m op).cache.length := by
  cases op with
  | ins k v =>
    show Inv (m.insert k v).1 ∧ m.cache.length ≤ (m.insert k v).1.cache.length
    cases hg : m.get k with
    | some w =>
      rw [insert_present h hg v]
      exact ⟨h, Nat.le_refl _⟩
    | none =>
      have hp := insert_absent h v hg
      exact ⟨hp.2.1, hp.2.2.2.2⟩
  | rem k =>
    show Inv (m.remove k).1 ∧ m.cache.length ≤ (m.remove k).1.cache.length
    cases hg : m.get k with
    | none =>
      rw [remove_absent h hg]
      exact ⟨h, Nat.le_refl _⟩
    | some w =>
      have hp := remove_present h hg
      exact ⟨hp.2.1, Nat.le_of_eq hp.2.2.2.2.symm⟩
  | getOp k => exact ⟨h, Nat.le_refl _⟩
  | clr =>
    have hp := clear_pkg h
    exact ⟨hp.1, Nat.le_of_eq hp.2.symm⟩
  | ret f =>
    have hp := retain_pkg h f
    exact ⟨hp.1, Nat.le_of_eq hp.2.symm⟩

theorem runOps_pkg : ∀ (ops : List (Op V)) (m : IntMap V), Inv m →
    Inv (runOps m ops) ∧ m.cache.length ≤ (runOps m ops).cache.length
  | [], _, h => ⟨h, Nat.le_refl _⟩
  | op :: ops, m, h => by
    have h1 := applyOp_pkg h op
    have h2 := runOps_pkg ops (applyOp m op) h1.1
    exact ⟨h2.1, Nat.le_trans h1.2 h2.2⟩

theorem new_eq : (IntMap.new : IntMap V) =
    { cache := List.replicate 4 [], size := 2, mod_mask := 3, count := 0 } := rfl

theorem inv_new : Inv (IntMap.new : IntMap V) := by
  have hc : (IntMap.new : IntMap V).cache = List.replicate 4 [] := rfl
  have hs : (IntMap.new : IntMap V).size = 2 := rfl
  have hm : (IntMap.new : IntMap V).mod_mask = 3 := rfl
  have hn : (IntMap.new : IntMap V).count = 0 := rfl
  refine ⟨?_, ?_, ?_, ?_, ?_⟩
  · rw [hc, hs, List.length_replicate]
    norm_num
  · rw [hm, hs]
    norm_num
  · rw [hn, hc, flatten_replicate_nil]
    rfl
  · intro i hi kv hkv
    rw [hc, chainAt_replicate_nil] at hkv
    exact absurd hkv (by simp)
  · rw [hc, flatten_replicate_nil]
    simp

/-! ### Claim theorems -/

/-- C5: for all sequences of insert/remove/get operations (including
`retain` and `clear`), at every publicly observable point the stored
`count` equals the number of pairs reachable via iteration, which equals
the sum of all chain lengths — i.e. `assert_count` returns true after
every such sequence run from a fresh map. -/
theorem c5_count_invariant : ∀ (W : Type) (ops : List (Op W)),
    (runOps (IntMap.new : IntMap W) ops).assert_count = true := by
  intro W ops
  have h := (runOps_pkg ops IntMap.new inv_new).1
  simp [IntMap.assert_count, h.2.2.1]

/-- C6 (amended): the bucket array is materialized at construction —
`new()` allocates 4 chains before any insert, not zero — and the number
of chains never decreases under any sequence of operations (no shrink on
remove or clear). -/
theorem c6_capacity_monotone : ∀ (W : Type) (m : IntMap W) (ops : List (Op W)),
    Inv m → (IntMap.new : IntMap W).cache.length = 4 ∧
      m.cache.length ≤ (runOps m ops).cache.length := by
  intro W m ops h
  exact ⟨by rw [new_eq, List.length_replicate], (runOps_pkg ops m h).2⟩

/-- C6 witness: the amended claim instantiated on a fresh map running a
`clear`. -/
theorem c6_capacity_monotone_witness :
    Inv (IntMap.new : IntMap Nat) ∧
    ((IntMap.new : IntMap Nat).cache.length = 4 ∧
      (IntMap.new : IntMap Nat).cache.length ≤
        (runOps (IntMap.new : IntMap Nat) [Op.clr]).cache.length) :=
  ⟨by decide, c6_capacity_monotone Nat IntMap.new [Op.clr] (by decide)⟩

/-- C6 counterexample: the claim says the bucket array is created with
zero chains and first materializes on the first insert; in this code
`new()` already holds 4 chains before any insert. -/
theorem c6_counterexample :
    (IntMap.new : IntMap Nat).cache.length = 4 ∧
    (IntMap.new : IntMap Nat).cache.length ≠ 0 := by
  decide

/-- C9: `remove(k)` returns the removed value and decrements `count` by
one when the key is present (removal is by swap-with-last inside the
chain), and returns nothing leaving the map completely unchanged when
the key is absent. -/
theorem c9_remove_spec {m : IntMap V} (k : Nat) (h : Inv m) :
    (m.get k = none → m.remove k = (m, none)) ∧
    (∀ v, m.get k = some v →
      (m.remove k).2 = some v ∧ (m.remove k).1.count + 1 = m.count ∧
      (m.remove k).1.get k = none ∧
      ∀ k2, k2 ≠ k → (m.remove k).1.get k2 = m.get k2) := by
  constructor
  · intro habs
    exact remove_absent h habs
  · intro v hv
    have hp := remove_present h hv
    have hget := get_after_erase hp.2.1 h hp.2.2.2.1
    exact ⟨hp.1, hp.2.2.1, hget.1, hget.2⟩

/-- C9 witness: removing key 21 from a fresh map holding `21 ↦ 42`
returns 42. -/
theorem c9_remove_spec_witness :
    ((((IntMap.new : IntMap Nat).insert 21 42).1.remove 21).2 = some 42) := by
  have h := c9_remove_spec (m := ((IntMap.new : IntMap Nat).insert 21 42).1) 21 (by decide)
  exact (h.2 42 (by decide)).1

/-- C10: inserting a key does not change what `get` returns for any other
key, including when the insertion triggers capacity growth with a full
rehash. -/
theorem c10_insert_frame {m : IntMap V} (k1 k2 : Nat) (v : V) (h : Inv m)
    (hne : k1 ≠ k2) : (m.insert k1 v).1.get k2 = m.get k2 := by
  cases hg : m.get k1 with
  | some w => rw [insert_present h hg v]
  | none =>
    have hp := insert_absent h v hg
    exact (get_after_append hp.2.1 h hp.2.2.2.1).2 k2 (fun he => hne he.symm)

/-- C10 witness: the fourth insert into a fresh map triggers a capacity
doubling (4 → 8) and key 1 still maps to its old value. -/
theorem c10_insert_frame_witness :
    (((((IntMap.new : IntMap Nat).insert 0 10).1.insert 1 11).1.insert 2 12).1.insert 3 13).1.get 1 =
      ((((IntMap.new : IntMap Nat).insert 0 10).1.insert 1 11).1.insert 2 12).1.get 1 := by
  exact c10_insert_frame
    (m := ((((IntMap.new : IntMap Nat).insert 0 10).1.insert 1 11).1.insert 2 12).1)
    3 1 13 (by decide) (by decide)

/-- C1 (amended): `insert(k, v)` returns a `bool`, not the old value: if
a pair with key `k` is already present it returns `false` and leaves the
map completely unchanged (the stored value is NOT replaced, count
unchanged); if absent it pushes `(k, v)` at the end of its chain,
increments `count`, and returns `true`. -/
theorem c1_insert_checked {m : IntMap V} (k : Nat) (v : V) (h : Inv m) :
    ((∃ w, m.get k = some w) → m.insert k v = (m, false)) ∧
    (m.get k = none → (m.insert k v).2 = true ∧
      (m.insert k v).1.count = m.count + 1 ∧ (m.insert k v).1.get k = some v) := by
  constructor
  · rintro ⟨w, hw⟩
    exact insert_present h hw v
  · intro habs
    have hp := insert_absent h v habs
    exact ⟨hp.1, hp.2.2.1, (get_after_append hp.2.1 h hp.2.2.2.1).1⟩

/-- C1 witness: inserting key 21 twice — the second insert returns the
whole map unchanged together with `false`. -/
theorem c1_insert_checked_witness :
    ((IntMap.new : IntMap Nat).insert 21 10).1.insert 21 20 =
      (((IntMap.new : IntMap Nat).insert 21 10).1, false) :=
  (c1_insert_checked 21 20 (by decide)).1 ⟨10, by decide⟩

/-- C1 counterexample: the claim says an insert on a present key replaces
the value in place and returns the old value; in this code the second
insert of key 21 leaves the old value 10 in place (it does not store 20)
and returns the boolean `false`, not an `Option`. -/
theorem c1_counterexample :
    (((IntMap.new : IntMap Nat).insert 21 10).1.insert 21 20).1.get 21 = some 10 ∧
    (((IntMap.new : IntMap Nat).insert 21 10).1.insert 21 20).2 = false ∧
    some (10 : Nat) ≠ some 20 := by
  decide

/-- C2 (code bug): equality as implemented is asymmetric — it only checks
that every pair of the left map is in the right map.  An empty map
therefore compares equal to a non-empty map (a strict superset), while
the reverse comparison is false; the spec requires the symmetric
set-of-pairs equality. -/
theorem c2_eq_asymmetric :
    eqMap (IntMap.new : IntMap Nat) (((IntMap.new : IntMap Nat).insert 0 1).1) = true ∧
    eqMap (((IntMap.new : IntMap Nat).insert 0 1).1) (IntMap.new : IntMap Nat) = false := by
  decide

/-- C3 (amended): the load bound is only re-established by insertions
whose updated count has bit 2 set (`count & 4 == 4`) — the only
insertions that run the load check; after such an insertion
`(count × 100) / capacity ≤ 70` holds.  Other insertions can leave the
load above the configured bound. -/
theorem c3_load_after_checked_insert {m : IntMap V} (k : Nat) (v : V) (h : Inv m)
    (hins : (m.insert k v).2 = true)
    (htrig : (m.insert k v).1.count &&& 4 = 4) :
    (m.insert k v).1.count * 100 / (m.insert k v).1.cache.length ≤ 70 := by
  cases hg : m.get k with
  | some w =>
    rw [insert_present h hg v] at hins
    exact absurd hins (by simp)
  | none =>
    rw [insert_eq_of_absent h v hg] at htrig ⊢
    by_cases hc : ((m.count + 1) &&& 4 == 4) = true
    · rw [if_pos hc] at htrig ⊢
      exact ensure_load_rate_load (push_pair_pkg h v hg).1
    · rw [if_neg hc] at htrig
      exact absurd (by simpa using htrig) hc

/-- C3 witness: the fourth insert into a fresh map has `count = 4`
(bit 2 set), runs the load check, and ends below the 70% bound. -/
theorem c3_load_after_checked_insert_witness :
    ((((((IntMap.new : IntMap Nat).insert 0 10).1.insert 1 11).1.insert 2 12).1.insert
      3 13).1.count * 100) /
      (((((IntMap.new : IntMap Nat).insert 0 10).1.insert 1 11).1.insert 2 12).1.insert
        3 13).1.cache.length ≤ 70 :=
  c3_load_after_checked_insert
    (m := ((((IntMap.new : IntMap Nat).insert 0 10).1.insert 1 11).1.insert 2 12).1)
    3 13 (by decide) (by decide) (by decide)

/-- C3 counterexample: after three inserts into a fresh map no load check
has run (`count & 4` was never 4), and the load ratio is 750 per
thousand, above the configured bound of 700 (70%). -/
theorem c3_counterexample :
    ((((IntMap.new : IntMap Nat).insert 0 0).1.insert 1 0).1.insert 2 0).1.count * 1000 /
      ((((IntMap.new : IntMap Nat).insert 0 0).1.insert 1 0).1.insert 2 0).1.cache.length =
      750 ∧ 700 < 750 := by
  decide

/-- C4 (amended): the bucket index is computed as a wrapping (mod 2^64)
multiplicative hash masked down, `(C * k mod 2^64) & (2^s − 1)
= (C * k mod 2^64) mod 2^s` — but the engine's constant `C` is
`11400714819323198549` (≈ 2^64/φ), not the largest prime below `2^64`.
The largest-prime constants do appear in `src/int.rs`
(`U64_PRIME_MAX = 2^64 − 59`, `U32_PRIME_MAX = 4294967291`), while
`src/highest_prime.rs` returns `2^31 − 1` for `u32`, which is not the
largest prime below `2^32`. -/
theorem c4_index_formula :
    (∀ key s : Nat, cache_index (2 ^ s - 1) key =
      11400714819323198549 * key % 2 ^ 64 % 2 ^ s) ∧
    U64_PRIME_MAX = 18446744073709551557 ∧
    U32_PRIME_MAX = 4294967291 ∧
    highest_prime_u64 = U64_PRIME_MAX ∧
    highest_prime_u32 = 2 ^ 31 - 1 ∧
    highest_prime_u32 ≠ U32_PRIME_MAX := by
  refine ⟨?_, by norm_num [U64_PRIME_MAX], by norm_num [U32_PRIME_MAX],
    by norm_num [highest_prime_u64, U64_PRIME_MAX],
    by norm_num [highest_prime_u32], by decide⟩
  intro key s
  rw [cache_index, hash_u64, Nat.and_pow_two_sub_one_eq_mod]

/-- C4 counterexample: at key 1 and mask 1023 the engine's index (85)
differs from the index the claim's formula computes with the largest
prime below 2^64 (965); and the `u32` constant of highest_prime.rs is
2147483647, not the claimed 4294967291. -/
theorem c4_counterexample :
    cache_index 1023 1 ≠ spec_cache_index 1023 1 ∧
    highest_prime_u32 ≠ 4294967291 := by
  decide

/-- C7 (code bug): the `SealedInt` canonicalization of `i128` in
src/int.rs casts to `u64`, truncating to the low 64 bits, instead of the
same-width cast to `u128` the claim (and the rest of the impl pattern)
prescribes; the distinct i128 values 0 and 2^64 canonicalize to the same
integer and collide at every mask. -/
theorem c7_i128_cast_truncates :
    i128_as_u64 0 = i128_as_u64 18446744073709551616 ∧
    (0 : Int) ≠ 18446744073709551616 ∧
    (18446744073709551616 : Int) = 2 ^ 64 ∧
    ∀ mod_mask : Nat, i128_calc_index 0 mod_mask =
      i128_calc_index 18446744073709551616 mod_mask := by
  have h1 : i128_as_u64 0 = i128_as_u64 18446744073709551616 := by decide
  refine ⟨h1, by norm_num, by norm_num, ?_⟩
  intro mod_mask
  rw [i128_calc_index, i128_calc_index, h1]

theorem entry_vacant_of_absent {m : IntMap V} (h : Inv m) {k : Nat}
    (habs : m.get k = none) :
    m.entry k = EntryKind.vacant (cache_index m.mod_mask k) := by
  have hnone : find_first_idx (fun kv => kv.1 == k)
      (chainAt m.cache (cache_index m.mod_mask k)) = none := by
    rw [find_first_idx_eq_none]
    intro kv hkv
    have := chain_any_eq_false h habs
    rw [List.any_eq_false] at this
    exact this kv hkv
  simp [IntMap.entry, indices, hnone]

/-- C8: on an absent key, `entry` yields a vacant view caching the bucket
index, and `VacantEntry::insert` stores the pair, increments `count` by
one, and returns (a reference to) the value now associated with the key —
also when the insertion triggers capacity growth, in which case the
cached index is recomputed from the new mask via `indices`.  The value at
the returned bucket/chain position is exactly the stored pair, and every
other key's lookup is unchanged. -/
theorem c8_vacant_entry_insert {m : IntMap V} (k : Nat) (v : V) (h : Inv m)
    (habs : m.get k = none) :
    m.entry k = EntryKind.vacant (cache_index m.mod_mask k) ∧
    (vacant_insert m k (cache_index m.mod_mask k) v).1.count = m.count + 1 ∧
    (vacant_insert m k (cache_index m.mod_mask k) v).1.get k = some v ∧
    (chainAt (vacant_insert m k (cache_index m.mod_mask k) v).1.cache
      (vacant_insert m k (cache_index m.mod_mask k) v).2.1)[
        (vacant_insert m k (cache_index m.mod_mask k) v).2.2]? = some (k, v) ∧
    (∀ k2, k2 ≠ k →
      (vacant_insert m k (cache_index m.mod_mask k) v).1.get k2 = m.get k2) := by
  have hpush := push_pair_pkg h v habs
  have hlt := cache_index_lt h k
  refine ⟨entry_vacant_of_absent h habs, ?_⟩
  have hch : chainAt (push_pair m k v).cache (cache_index m.mod_mask k) =
      chainAt m.cache (cache_index m.mod_mask k) ++ [(k, v)] := by
    show chainAt (pushAt m.cache (cache_index m.mod_mask k) (k, v)) _ = _
    rw [pushAt, chainAt_set_self _ _ _ hlt]
  have hnogrow : vacant_insert m k (cache_index m.mod_mask k) v =
      (push_pair m k v, cache_index m.mod_mask k,
        (chainAt m.cache (cache_index m.mod_mask k)).length) →
      (vacant_insert m k (cache_index m.mod_mask k) v).1.count = m.count + 1 ∧
      (vacant_insert m k (cache_index m.mod_mask k) v).1.get k = some v ∧
      (chainAt (vacant_insert m k (cache_index m.mod_mask k) v).1.cache
        (vacant_insert m k (cache_index m.mod_mask k) v).2.1)[
          (vacant_insert m k (cache_index m.mod_mask k) v).2.2]? = some (k, v) ∧
      (∀ k2, k2 ≠ k →
        (vacant_insert m k (cache_index m.mod_mask k) v).1.get k2 = m.get k2) := by
    intro hres
    have hgets := get_after_append hpush.1 h hpush.2.1
    rw [hres]
    refine ⟨hpush.2.2.1, hgets.1, ?_, hgets.2⟩
    show (chainAt (push_pair m k v).cache (cache_index m.mod_mask k))[
      (chainAt m.cache (cache_index m.mod_mask k)).length]? = some (k, v)
    rw [hch]
    exact List.getElem?_concat_length _ _
  by_cases hc : ((m.count + 1) &&& 4 == 4) = true
  · by_cases hc2 : 70 < (m.count + 1) * 100 /
        (m.cache.set (cache_index m.mod_mask k)
          (chainAt m.cache (cache_index m.mod_mask k) ++ [(k, v)])).length
    · -- the insertion triggers growth: the cached index is recomputed
      have hres : vacant_insert m k (cache_index m.mod_mask k) v =
          (ensure_go_free (m.count + 1 + 2) (push_pair m k v),
            (indices (ensure_go_free (m.count + 1 + 2) (push_pair m k v)).cache
              (ensure_go_free (m.count + 1 + 2) (push_pair m k v)).mod_mask k).1,
            (indices (ensure_go_free (m.count + 1 + 2) (push_pair m k v)).cache
              (ensure_go_free (m.count + 1 + 2) (push_pair m k v)).mod_mask k).2.getD 0) := by
        simp only [vacant_insert, hc, if_true, ensure_load_rate_free]
        rw [if_pos hc2]
        rfl
      have hpkg2 := ensure_go_free_pkg (m.count + 1 + 2) (push_pair m k v) hpush.1
      have hcomb : (ensure_go_free (m.count + 1 + 2)
          (push_pair m k v)).cache.flatten.Perm (m.cache.flatten ++ [(k, v)]) :=
        hpkg2.2.1.trans hpush.2.1
      have hmem : (k, v) ∈ (ensure_go_free (m.count + 1 + 2)
          (push_pair m k v)).cache.flatten :=
        hcomb.mem_iff.mpr (by simp)
      have hchmem := mem_chain_of_mem_flatten hpkg2.1 hmem
      obtain ⟨i, hfi⟩ := find_first_idx_mem (fun kv => kv.1 == k) _ (k, v) hchmem (by simp)
      obtain ⟨x, hgx, hpx⟩ := find_first_idx_some _ _ i hfi
      have hxk : x.1 = k := by simpa using hpx
      have hxflat : (k, x.2) ∈ (ensure_go_free (m.count + 1 + 2)
          (push_pair m k v)).cache.flatten := by
        have hx' : x = (k, x.2) := by
          cases x
          simp only at hxk
          rw [hxk]
        exact hx' ▸ mem_chainAt_flatten (cache_index_lt hpkg2.1 k) (List.getElem?_mem hgx)
      have hx2 : x.2 = v := keys_unique hpkg2.1.2.2.2.2 hxflat hmem
      have hxv : x = (k, v) := by
        cases x
        simp only at hxk hx2
        rw [hxk, hx2]
      have hgets := get_after_append hpkg2.1 h hcomb
      have hind : indices (ensure_go_free (m.count + 1 + 2) (push_pair m k v)).cache
          (ensure_go_free (m.count + 1 + 2) (push_pair m k v)).mod_mask k =
          (cache_index (ensure_go_free (m.count + 1 + 2)
            (push_pair m k v)).mod_mask k, some i) := by
        simp only [indices, hfi]
      rw [hres]
      refine ⟨?_, hgets.1, ?_, hgets.2⟩
      · show (ensure_go_free (m.count + 1 + 2) (push_pair m k v)).count = m.count + 1
        rw [hpkg2.2.2.1]
        exact hpush.2.2.1
      · rw [hind]
        show (chainAt (ensure_go_free (m.count + 1 + 2) (push_pair m k v)).cache
          (cache_index (ensure_go_free (m.count + 1 + 2)
            (push_pair m k v)).mod_mask k))[i]? = some (k, v)
        rw [← hxv]
        exact hgx
    · refine hnogrow ?_
      simp only [vacant_insert, hc, if_true, ensure_load_rate_free]
      rw [if_neg hc2]
      rfl
  · refine hnogrow ?_
    have hc' : ((m.count + 1) &&& 4 == 4) = false := by
      simpa using hc
    simp only [vacant_insert, hc', Bool.false_eq_true, if_false]
    rfl

/-- C8 witness (spec scenario C): insert key 65 with "foo", remove it,
then insert "bar" through the vacant-entry view — the map holds exactly
the pair `65 ↦ "bar"` (count 1). -/
theorem c8_vacant_entry_insert_witness :
    (vacant_insert (((IntMap.new : IntMap String).insert 65 "foo").1.remove 65).1 65
      (cache_index (((IntMap.new : IntMap String).insert 65 "foo").1.remove 65).1.mod_mask 65)
      "bar").1.get 65 = some "bar" ∧
    (vacant_insert (((IntMap.new : IntMap String).insert 65 "foo").1.remove 65).1 65
      (cache_index (((IntMap.new : IntMap String).insert 65 "foo").1.remove 65).1.mod_mask 65)
      "bar").1.count = 1 := by
  have h := c8_vacant_entry_insert
    (m := (((IntMap.new : IntMap String).insert 65 "foo").1.remove 65).1) 65 "bar"
    (by decide) (by decide)
  refine ⟨h.2.2.1, ?_⟩
  rw [h.2.1]
  decide

end IntMapRs
